import Mathlib

/-!
# Verification of the pyradiotracking core against its specification

Shallow embedding of `radiotracking` (pulse extraction, shadow filtering,
signal matching and schedule validation).  Machine floats are modelled as
exact rationals (every Python float is a rational number); the logarithmic
(dB) domain is modelled over the real numbers, since `10 * log10` and
`10 ** (x / 10)` are transcendental.
-/

namespace Radiotracking

/-- `dB(val) = 10 * log10(val)` — `radiotracking.dB` (`__init__.py`). -/
noncomputable def dB (val : ℝ) : ℝ := 10 * Real.logb 10 val

/-- `from_dB(x) = 10 ** (x / 10)` — `radiotracking.from_dB` (`__init__.py`). -/
noncomputable def from_dB (x : ℝ) : ℝ := (10 : ℝ) ^ (x / 10)

/-- Mean of a list of rationals (`np.mean`); 0 on the empty list. -/
def meanQ (l : List ℚ) : ℚ := l.sum / l.length

/-- Maximum of a list of rationals (`np.max` / `max`); 0 on the empty list
(the sources never take a maximum of an empty collection). -/
def maxQ : List ℚ → ℚ
  | [] => 0
  | x :: xs => xs.foldl max x

/-- Minimum of a list of rationals (`min`); 0 on the empty list. -/
def minQ : List ℚ → ℚ
  | [] => 0
  | x :: xs => xs.foldl min x

theorem le_foldl_max (l : List ℚ) (a x : ℚ) (h : x ∈ l ∨ x ≤ a) :
    x ≤ l.foldl max a := by
  induction l generalizing a with
  | nil => simpa using h
  | cons y ys ih =>
    rw [List.foldl_cons]
    rcases h with h | h
    · rcases List.mem_cons.mp h with h | h
      · exact ih (max a y) (Or.inr (h ▸ le_max_right a y))
      · exact ih (max a y) (Or.inl h)
    · exact ih (max a y) (Or.inr (h.trans (le_max_left a y)))

theorem foldl_max_mem (l : List ℚ) (a : ℚ) :
    l.foldl max a = a ∨ l.foldl max a ∈ l := by
  induction l generalizing a with
  | nil => exact Or.inl rfl
  | cons y ys ih =>
    rw [List.foldl_cons]
    rcases ih (max a y) with h | h
    · rcases max_choice a y with hm | hm
      · exact Or.inl (h.trans hm)
      · exact Or.inr (List.mem_cons.mpr (Or.inl (h.trans hm)))
    · exact Or.inr (List.mem_cons.mpr (Or.inr h))

theorem le_maxQ {l : List ℚ} {x : ℚ} (hx : x ∈ l) : x ≤ maxQ l := by
  match l with
  | y :: ys =>
    rcases List.mem_cons.mp hx with h | h
    · exact le_foldl_max ys y x (Or.inr (le_of_eq h))
    · exact le_foldl_max ys y x (Or.inl h)

theorem maxQ_mem {l : List ℚ} (hl : l ≠ []) : maxQ l ∈ l := by
  match l with
  | y :: ys =>
    rcases foldl_max_mem ys y with h | h
    · rw [maxQ, h]; exact List.mem_cons_self y ys
    · rw [maxQ]; exact List.mem_cons.mpr (Or.inr h)

/-- On a nonempty list the mean is at most the maximum. -/
theorem meanQ_le_maxQ {l : List ℚ} (hl : l ≠ []) : meanQ l ≤ maxQ l := by
  have hlen : 0 < (l.length : ℚ) := by
    have := List.length_pos.mpr hl
    exact_mod_cast this
  rw [meanQ, div_le_iff₀ hlen]
  have h := List.sum_le_card_nsmul l (maxQ l) (fun x hx => le_maxQ hx)
  calc l.sum ≤ l.length • maxQ l := h
    _ = (l.length : ℚ) * maxQ l := by rw [nsmul_eq_mul]
    _ = maxQ l * (l.length : ℚ) := by ring

/-- On a list of positive entries the mean is positive. -/
theorem meanQ_pos {l : List ℚ} (hl : l ≠ []) (hpos : ∀ x ∈ l, 0 < x) :
    0 < meanQ l := by
  have hlen : 0 < (l.length : ℚ) := by
    have := List.length_pos.mpr hl
    exact_mod_cast this
  exact div_pos (List.sum_pos l hpos hl) hlen

/-- On a list of positive entries the maximum is positive. -/
theorem maxQ_pos {l : List ℚ} (hl : l ≠ []) (hpos : ∀ x ∈ l, 0 < x) :
    0 < maxQ l := hpos _ (maxQ_mem hl)

/-! ## Shadow filter (`analyze.py`, `SignalAnalyzer.is_shadow_of` /
`filter_shadow_signals`)

The filter only reads the timestamp, the duration and the maximum power of
each `Signal`, so the embedding uses a record with exactly those fields
(floats modelled as rationals). -/

/-- The fields of `radiotracking.Signal` read by the shadow filter. -/
structure ShSig where
  ts : ℚ
  duration : ℚ
  maxv : ℚ
deriving DecidableEq, Repr

/-- One step of the scan in `is_shadow_of`: `fsig` shadows `sig` when the
two overlap in time and `fsig` is strictly louder.  The two `continue`
conditions of the source are the negated first two conjuncts. -/
def shadowCond (sig fsig : ShSig) : Bool :=
  !(decide (sig.ts > fsig.ts + fsig.duration)) &&
  !(decide (sig.ts + sig.duration < fsig.ts)) &&
  decide (fsig.maxv > sig.maxv)

/-- `SignalAnalyzer.is_shadow_of`: index of the first signal in `signals`
that `sig` is a shadow of, or `none`. -/
def is_shadow_of (sig : ShSig) (signals : List ShSig) : Option ℕ :=
  signals.findIdx? (shadowCond sig)

/-- `SignalAnalyzer.filter_shadow_signals`: keep the signals that are not a
shadow of any signal in the input list. -/
def filter_shadow_signals (signals : List ShSig) : List ShSig :=
  signals.filter (fun sig => (is_shadow_of sig signals).isNone)

/-- A signal surviving one pass of the shadow filter is not a shadow of any
signal of the full input list, hence not a shadow of any survivor either. -/
theorem is_shadow_of_filter_eq_none {sig : ShSig} {signals : List ShSig}
    (h : is_shadow_of sig signals = none) :
    is_shadow_of sig (filter_shadow_signals signals) = none := by
  rw [is_shadow_of, List.findIdx?_eq_none_iff] at h ⊢
  intro x hx
  exact h x (List.mem_of_mem_filter hx)

/-- C8: The shadow filter is idempotent: applying `filter_shadow_signals`
to its own output returns that output unchanged — a signal that survives
one pass is never dropped by a second pass. -/
theorem filter_shadow_signals_idempotent (signals : List ShSig) :
    filter_shadow_signals (filter_shadow_signals signals) =
      filter_shadow_signals signals := by
  apply List.filter_eq_self.mpr
  intro s hs
  have hnone : is_shadow_of s signals = none := by
    have := (List.mem_filter.mp hs).2
    exact Option.isNone_iff_eq_none.mp this
  rw [is_shadow_of_filter_eq_none hnone]
  rfl

/-! ## Pulse extractor (`analyze.py`, `SignalAnalyzer.extract_signals`)

The spectrogram block is a list of rows (one per frequency bin), each row a
list of linear power samples; `times` are the within-block sample times.
Thresholds are taken in the linear power domain: `__init__` computes
`signal_threshold = from_dB(signal_threshold_dbw + calibration_db)` and
`snr_threshold = from_dB(snr_threshold_db)` once, and the extraction loop
only ever uses the resulting linear values (Python floats, i.e. rationals).
The dB statistics of an emitted signal are functions of the retained linear
data slice, defined in the dB layer below. -/

/-- The per-analyzer state read by `extract_signals`:
linear thresholds, the duration gate bounds (seconds) and the tuning. -/
structure ExtractCfg where
  signal_threshold : ℚ
  snr_threshold : ℚ
  signal_min_duration : ℚ
  signal_max_duration : ℚ
  calibration_db : ℚ
  center_freq : ℚ
deriving DecidableEq, Repr

/-- An extracted pulse before conversion to dB statistics: the carrier
frequency, the start offset `start_dt` relative to the block start, the
duration, the retained linear data slice and the bin noise (`freq_avg`). -/
structure SigCore where
  freq : ℚ
  ts_offset : ℚ
  duration : ℚ
  data : List ℚ
  noise_lin : ℚ
deriving DecidableEq, Repr

/-- Power sample at (possibly negative) time index `i`: negative indices
read from the tail of the previous block's row (`spectrogram_last[fi][i]`).
Out-of-range indices yield 0 (unreachable in the loops below). -/
def powAt (priorRow : List ℚ) (fft : List ℚ) (i : ℤ) : ℚ :=
  if 0 ≤ i then fft.getD i.toNat 0
  else priorRow.getD (priorRow.length - i.natAbs) 0

/-- Both per-sample gates of the extractor, in the source's order:
`power < signal_threshold` breaks, then `power / freq_avg < snr_threshold`
breaks. -/
def passB (cfg : ExtractCfg) (freq_avg p : ℚ) : Bool :=
  !(decide (p < cfg.signal_threshold)) &&
  !(decide (p / freq_avg < cfg.snr_threshold))

/-- The backward extension (`while start > start_min`): decrement while the
sample passes both gates; the fuel counts the remaining steps down to
`start_min`, so running out of fuel is exactly `start = start_min`. -/
def extendDown (cfg : ExtractCfg) (priorRow fft : List ℚ) (freq_avg : ℚ) :
    ℕ → ℤ → ℤ
  | 0, s => s
  | fuel + 1, s =>
    if passB cfg freq_avg (powAt priorRow fft s) then
      extendDown cfg priorRow fft freq_avg fuel (s - 1)
    else s

/-- The forward extension (`while end < len(fft)`): increment while the
sample passes both gates; on a failing sample return `(end, some end)`
(the source sets `ti_skip = end` there); running out of fuel is exactly
`end = len(fft)` and leaves `ti_skip` untouched (`none`). -/
def extendUp (cfg : ExtractCfg) (fft : List ℚ) (freq_avg : ℚ) :
    ℕ → ℕ → ℕ × Option ℕ
  | 0, e => (e, none)
  | fuel + 1, e =>
    if passB cfg freq_avg (fft.getD e 0) then
      extendUp cfg fft freq_avg fuel (e + 1)
    else (e, some e)

/-- Assembly of one accepted pulse candidate from the extension results
`start` and `end`: the timestamp offset `start_dt` (negative indices read
the previous block, hence the negated `times[-start]`), the duration
`times[end] - start_dt` and the retained data slice (concatenated across
the block boundary when `start < 0`). -/
def candidateSig (_cfg : ExtractCfg) (times priorRow fft : List ℚ)
    (freq freq_avg : ℚ) (start : ℤ) (e : ℕ) : SigCore :=
  let end_dt := times.getD e 0
  let start_dt :=
    if start < 0 then -(times.getD start.natAbs 0)
    else times.getD start.toNat 0
  let data :=
    if start < 0 then
      priorRow.drop (priorRow.length - start.natAbs) ++ fft.take e
    else (fft.drop start.toNat).take (e - start.toNat)
  { freq := freq, ts_offset := start_dt, duration := end_dt - start_dt,
    data := data, noise_lin := freq_avg }

/-- The scan of one frequency bin over the strided candidate indices `tis`,
carrying `ti_skip`.  `freq_avg` is the bin mean; the source computes it
lazily at the first candidate that passes the power gate, which yields the
same emitted signals as the eager value used here (it is only ever read
after having been assigned `np.mean(fft)`). -/
def scanBin (cfg : ExtractCfg) (times : List ℚ) (priorRow : List ℚ)
    (start_min : ℤ) (fft : List ℚ) (freq : ℚ) (freq_avg : ℚ) :
    List ℕ → ℕ → List SigCore
  | [], _ => []
  | ti :: rest, ti_skip =>
    if ti < ti_skip then
      scanBin cfg times priorRow start_min fft freq freq_avg rest ti_skip
    else if fft.getD ti 0 < cfg.signal_threshold then
      scanBin cfg times priorRow start_min fft freq freq_avg rest ti_skip
    else if fft.getD ti 0 / freq_avg < cfg.snr_threshold then
      scanBin cfg times priorRow start_min fft freq freq_avg rest ti_skip
    else
      let start := extendDown cfg priorRow fft freq_avg
        ((ti - start_min).toNat) ti
      let up := extendUp cfg fft freq_avg (fft.length - ti) ti
      let ti_skip' := up.2.getD ti_skip
      if up.1 = fft.length then
        -- signal overlaps into the next spectrogram, skipped
        scanBin cfg times priorRow start_min fft freq freq_avg rest ti_skip'
      else
        let c := candidateSig cfg times priorRow fft freq freq_avg start up.1
        if c.duration < cfg.signal_min_duration then
          scanBin cfg times priorRow start_min fft freq freq_avg rest ti_skip'
        else if cfg.signal_max_duration < c.duration then
          scanBin cfg times priorRow start_min fft freq freq_avg rest ti_skip'
        else
          c :: scanBin cfg times priorRow start_min fft freq freq_avg rest ti_skip'

/-- The strided candidate indices `range(0, len(fft), step)`. -/
def strided (len step : ℕ) : List ℕ :=
  List.range' 0 ((len + step - 1) / step) step

/-- Iteration over the frequency bins: row `fi` of the previous block is
read for negative indices, `freqs[fi] + center_freq` is the carrier. -/
def extractBins (cfg : ExtractCfg) (freqs times : List ℚ)
    (prior : Option (List (List ℚ))) (start_min : ℤ) (step : ℕ) :
    ℕ → List (List ℚ) → List SigCore
  | _, [] => []
  | fi, fft :: rest =>
    scanBin cfg times ((prior.getD []).getD fi []) start_min fft
      (freqs.getD fi 0 + cfg.center_freq) (meanQ fft)
      (strided fft.length step) 0 ++
    extractBins cfg freqs times prior start_min step (fi + 1) rest

/-- `SignalAnalyzer.extract_signals`.  Returns `none` exactly when the
source raises `IndexError`: the scan stride reads `times[1]`, which is out
of bounds whenever `times` has exactly one entry (the empty case returns
the empty list before that read). -/
def extract_signals (cfg : ExtractCfg) (freqs times : List ℚ)
    (spectro : List (List ℚ)) (prior : Option (List (List ℚ))) :
    Option (List SigCore) :=
  if times.length = 0 then some []
  else
    match times.get? 1 with
    | none => none
    | some t1 =>
      let dt := t1 - times.getD 0 0
      let num := cfg.signal_min_duration / dt
      let step := max 1 (Int.toNat ⌊num⌋)
      let start_min : ℤ :=
        match prior with
        | none => 0
        | some rows => -(((rows.getD 0 []).length : ℤ)) + 1
      some (extractBins cfg freqs times prior start_min step 0 spectro)

/-! ### Structural facts about the extraction loops -/

theorem extendUp_fst_ge (cfg : ExtractCfg) (fft : List ℚ) (fa : ℚ) :
    ∀ fuel e, e ≤ (extendUp cfg fft fa fuel e).1 := by
  intro fuel
  induction fuel with
  | zero => intro e; simp [extendUp]
  | succ n ih =>
    intro e
    rw [extendUp]
    split
    · exact le_trans (Nat.le_succ e) (ih (e + 1))
    · simp

theorem extendUp_fst_gt (cfg : ExtractCfg) (fft : List ℚ) (fa : ℚ)
    (fuel e : ℕ) (hf : 1 ≤ fuel) (h : passB cfg fa (fft.getD e 0) = true) :
    e + 1 ≤ (extendUp cfg fft fa fuel e).1 := by
  match fuel, hf with
  | n + 1, _ =>
    rw [extendUp, if_pos h]
    exact extendUp_fst_ge cfg fft fa n (e + 1)

theorem extendDown_le (cfg : ExtractCfg) (pr fft : List ℚ) (fa : ℚ) :
    ∀ fuel (s : ℤ), extendDown cfg pr fft fa fuel s ≤ s := by
  intro fuel
  induction fuel with
  | zero => intro s; simp [extendDown]
  | succ n ih =>
    intro s
    rw [extendDown]
    split
    · exact le_trans (ih (s - 1)) (by omega)
    · exact le_refl s

theorem getD_mem_or {α : Type} {l : List α} {i : ℕ} {d : α} :
    l.getD i d = d ∨ l.getD i d ∈ l := by
  rcases Nat.lt_or_ge i l.length with h | h
  · right
    rw [List.getD_eq_getElem l d h]
    exact List.getElem_mem h
  · left
    exact List.getD_eq_default l d h

/-- The data slice of an accepted candidate is nonempty. -/
theorem candidateSig_data_ne_nil (cfg : ExtractCfg)
    (times priorRow fft : List ℚ) (freq freq_avg : ℚ) (start : ℤ) (e : ℕ)
    (h1 : 1 ≤ e) (h2 : start.toNat < fft.length) (h3 : start.toNat < e) :
    (candidateSig cfg times priorRow fft freq freq_avg start e).data ≠ [] := by
  apply List.length_pos.mp
  simp only [candidateSig]
  split
  · rw [List.length_append, List.length_take]
    omega
  · rw [List.length_take, List.length_drop]
    omega

/-- Every retained sample of a candidate comes from the previous block's
row or from the current row. -/
theorem candidateSig_data_subset (cfg : ExtractCfg)
    (times priorRow fft : List ℚ) (freq freq_avg : ℚ) (start : ℤ) (e : ℕ) :
    ∀ x ∈ (candidateSig cfg times priorRow fft freq freq_avg start e).data,
      x ∈ priorRow ∨ x ∈ fft := by
  intro x hx
  simp only [candidateSig] at hx
  split at hx
  · rcases List.mem_append.mp hx with hx | hx
    · exact Or.inl (List.drop_subset _ _ hx)
    · exact Or.inr (List.take_subset _ _ hx)
  · exact Or.inr (List.drop_subset _ _ (List.take_subset _ _ hx))

/-- Every signal emitted by a bin scan passes the inclusive duration gate,
records the bin mean as its noise, carries a nonempty data slice drawn from
the current row and the previous block's row, and reports the bin carrier
frequency. -/
theorem scanBin_mem {cfg : ExtractCfg} {times priorRow : List ℚ}
    {start_min : ℤ} {fft : List ℚ} {freq freq_avg : ℚ} {tis : List ℕ}
    {ti_skip : ℕ} {s : SigCore}
    (htis : ∀ ti ∈ tis, ti < fft.length)
    (hs : s ∈ scanBin cfg times priorRow start_min fft freq freq_avg tis ti_skip) :
    (cfg.signal_min_duration ≤ s.duration ∧
      s.duration ≤ cfg.signal_max_duration) ∧
    s.noise_lin = freq_avg ∧ s.freq = freq ∧ s.data ≠ [] ∧
    (∀ x ∈ s.data, x ∈ priorRow ∨ x ∈ fft) ∧ fft ≠ [] := by
  induction tis generalizing ti_skip with
  | nil => simp [scanBin] at hs
  | cons ti rest ih =>
    have hti : ti < fft.length := htis ti (List.mem_cons_self ti rest)
    have htis' : ∀ t ∈ rest, t < fft.length :=
      fun t ht => htis t (List.mem_cons_of_mem ti ht)
    simp only [scanBin] at hs
    split_ifs at hs with h1 h2 h3 h4 h5 h6
    · exact ih htis' hs
    · exact ih htis' hs
    · exact ih htis' hs
    · exact ih htis' hs
    · exact ih htis' hs
    · exact ih htis' hs
    · rcases List.mem_cons.mp hs with hs | hs
      · subst hs
        have hpass : passB cfg freq_avg (fft.getD ti 0) = true := by
          rw [passB, Bool.and_eq_true, Bool.not_eq_true', Bool.not_eq_true',
            decide_eq_false_iff_not, decide_eq_false_iff_not]
          exact ⟨h2, h3⟩
        have hup : ti + 1 ≤ (extendUp cfg fft freq_avg (fft.length - ti) ti).1 :=
          extendUp_fst_gt cfg fft freq_avg _ ti (by omega) hpass
        have hdown : extendDown cfg priorRow fft freq_avg
            ((ti - start_min).toNat) ti ≤ ti :=
          extendDown_le cfg priorRow fft freq_avg _ ti
        have hdown' : (extendDown cfg priorRow fft freq_avg
            ((ti - start_min).toNat) ti).toNat ≤ ti := Int.toNat_le.mpr hdown
        refine ⟨⟨not_lt.mp h5, not_lt.mp h6⟩, rfl, rfl, ?_, ?_, ?_⟩
        · exact candidateSig_data_ne_nil cfg times priorRow fft freq freq_avg
            _ _ (by omega) (by omega) (by omega)
        · exact candidateSig_data_subset cfg times priorRow fft freq freq_avg _ _
        · exact List.length_pos.mp (by omega)
      · exact ih htis' hs

/-- The strided candidate indices stay inside the row. -/
theorem strided_lt {len step t : ℕ} (ht : t ∈ strided len step) : t < len := by
  rw [strided, List.mem_range'] at ht
  obtain ⟨i, hi, rfl⟩ := ht
  rcases Nat.eq_zero_or_pos step with hstep | hstep
  · subst hstep
    simp at hi
  · rcases Nat.eq_zero_or_pos len with hlen | hlen
    · subst hlen
      rw [Nat.div_eq_of_lt (by omega)] at hi
      omega
    · have h1 : (i + 1) * step ≤ ((len + step - 1) / step) * step :=
        Nat.mul_le_mul_right step hi
      have h2 : ((len + step - 1) / step) * step ≤ len + step - 1 :=
        Nat.div_mul_le_self _ _
      have h3 : i * step + step ≤ len + step - 1 := by
        calc i * step + step = (i + 1) * step := by ring
          _ ≤ len + step - 1 := le_trans h1 h2
      rw [zero_add, Nat.mul_comm]
      set k := i * step with hk
      omega

/-- Bin-level version of `scanBin_mem`: every signal produced by the bin
iteration comes with a witness row of the block and a witness row of the
previous block (or the empty default row). -/
theorem extractBins_mem {cfg : ExtractCfg} {freqs times : List ℚ}
    {prior : Option (List (List ℚ))} {start_min : ℤ} {step fi : ℕ}
    {rows : List (List ℚ)} {s : SigCore}
    (hs : s ∈ extractBins cfg freqs times prior start_min step fi rows) :
    ∃ fft ∈ rows, ∃ priorRow,
      (priorRow = [] ∨ priorRow ∈ prior.getD []) ∧
      (cfg.signal_min_duration ≤ s.duration ∧
        s.duration ≤ cfg.signal_max_duration) ∧
      s.noise_lin = meanQ fft ∧ s.data ≠ [] ∧
      (∀ x ∈ s.data, x ∈ priorRow ∨ x ∈ fft) ∧ fft ≠ [] := by
  induction rows generalizing fi with
  | nil => simp [extractBins] at hs
  | cons fft rest ih =>
    rw [extractBins] at hs
    rcases List.mem_append.mp hs with hs | hs
    · have h := scanBin_mem (fun t ht => strided_lt ht) hs
      exact ⟨fft, List.mem_cons_self fft rest,
        (prior.getD []).getD fi [], getD_mem_or,
        h.1, h.2.1, h.2.2.2.1, h.2.2.2.2.1, h.2.2.2.2.2⟩
    · obtain ⟨fft', hfft', rest'⟩ := ih hs
      exact ⟨fft', List.mem_cons_of_mem fft hfft', rest'⟩

/-- Top-level version: every signal of a successful `extract_signals` run
passes the duration gate, records its bin mean as noise, and its data is a
nonempty selection out of the current and previous spectrogram rows. -/
theorem extract_signals_mem {cfg : ExtractCfg} {freqs times : List ℚ}
    {spectro : List (List ℚ)} {prior : Option (List (List ℚ))}
    {out : List SigCore} {s : SigCore}
    (h : extract_signals cfg freqs times spectro prior = some out)
    (hs : s ∈ out) :
    ∃ fft ∈ spectro, ∃ priorRow,
      (priorRow = [] ∨ priorRow ∈ prior.getD []) ∧
      (cfg.signal_min_duration ≤ s.duration ∧
        s.duration ≤ cfg.signal_max_duration) ∧
      s.noise_lin = meanQ fft ∧ s.data ≠ [] ∧
      (∀ x ∈ s.data, x ∈ priorRow ∨ x ∈ fft) ∧ fft ≠ [] := by
  rw [extract_signals.eq_def] at h
  split_ifs at h with h0
  · cases h
    simp at hs
  · revert h
    split
    · intro h
      cases h
    · intro h
      cases h
      exact extractBins_mem hs

/-- C4: every `Signal` the pulse extractor emits has a duration between
`signal_min_duration` and `signal_max_duration` inclusive; candidates with
a measured duration outside that closed interval are never emitted. -/
theorem extract_signals_duration_in_bounds {cfg : ExtractCfg}
    {freqs times : List ℚ} {spectro : List (List ℚ)}
    {prior : Option (List (List ℚ))} {out : List SigCore} {s : SigCore}
    (h : extract_signals cfg freqs times spectro prior = some out)
    (hs : s ∈ out) :
    cfg.signal_min_duration ≤ s.duration ∧
      s.duration ≤ cfg.signal_max_duration := by
  obtain ⟨fft, _, priorRow, _, hdur, _⟩ := extract_signals_mem h hs
  exact hdur

/-- The concrete configuration used for the evaluation runs: linear power
threshold 2, linear SNR threshold 1, duration gate [2 s, 4 s], calibration
offset 10 dB, center frequency 150 kHz. -/
def cfgR : ExtractCfg := ⟨2, 1, 2, 4, 10, 150000⟩

/-- The single pulse extracted in the concrete run below. -/
def sigR : SigCore := ⟨150000, 1, 4, [1, 64, 64, 64], 65/2⟩

set_option maxHeartbeats 1000000 in
/-- A concrete extraction run: one bin, six samples, a plateau of three
samples above threshold framed by sub-threshold samples. -/
theorem extractR :
    extract_signals cfgR [0] [0, 1, 2, 3, 4, 5] [[1, 1, 64, 64, 64, 1]] none =
      some [sigR] := by
  norm_num [extract_signals, extractBins, scanBin, strided, extendUp,
    extendDown, candidateSig, passB, powAt, meanQ, cfgR, sigR, List.range']
  simp only [Int.reduceToNat]
  norm_num [extract_signals, extractBins, scanBin, strided, extendUp,
    extendDown, candidateSig, passB, powAt, meanQ, cfgR, sigR, List.range']

/-- Witness for C4 at the concrete run: the emitted pulse's duration of
4 s lies inside the configured gate [2 s, 4 s]. -/
theorem extract_signals_duration_in_bounds_witness :
    cfgR.signal_min_duration ≤ sigR.duration ∧
      sigR.duration ≤ cfgR.signal_max_duration :=
  extract_signals_duration_in_bounds extractR (List.mem_singleton.mpr rfl)

/-- C9: on an empty `times` array the extractor returns the empty list;
with exactly one entry it does not return a result (the scan stride reads
`times[1]`, an out-of-bounds access, modelled as `none`); with two or more
entries the stride computation is well-defined and a result is returned. -/
theorem extract_signals_times_arity :
    (∀ cfg freqs spectro prior,
      extract_signals cfg freqs [] spectro prior = some []) ∧
    (∀ cfg freqs (t0 : ℚ) spectro prior,
      extract_signals cfg freqs [t0] spectro prior = none) ∧
    (∀ cfg freqs times spectro prior, 2 ≤ times.length →
      ∃ out, extract_signals cfg freqs times spectro prior = some out) := by
  refine ⟨fun cfg freqs spectro prior => by simp [extract_signals],
    fun cfg freqs t0 spectro prior => by simp [extract_signals],
    fun cfg freqs times spectro prior h2 => ?_⟩
  rw [extract_signals.eq_def]
  rw [if_neg (by omega)]
  have h1 : times.get? 1 ≠ none := by
    rw [Ne, List.get?_eq_none]
    omega
  cases hget : times.get? 1 with
  | none => exact absurd hget h1
  | some t1 => exact ⟨_, rfl⟩

/-- Witness for C9: concrete empty, singleton and two-entry `times`. -/
theorem extract_signals_times_arity_witness :
    extract_signals cfgR [0] [] [[1]] none = some [] ∧
    extract_signals cfgR [0] [0] [[1]] none = none ∧
    ∃ out, extract_signals cfgR [0] [0, 1] [[1, 1]] none = some out :=
  ⟨extract_signals_times_arity.1 cfgR [0] [[1]] none,
    extract_signals_times_arity.2.1 cfgR [0] 0 [[1]] none,
    extract_signals_times_arity.2.2 cfgR [0] [0, 1] [[1, 1]] none (by decide)⟩

/-! ## dB statistics of an emitted Signal (`analyze.py` lines 442–449)

The `Signal` constructor receives
`max_dBW = dB(np.max(data)) - calibration_db`,
`avg_dBW = dB(np.mean(data)) - calibration_db`,
`std_dB = np.std(dB(data))`, `noise_dBW = dB(freq_avg)` and
`snr_dB = dB(np.mean(data) / freq_avg)`; these are functions of the
retained linear slice, defined here over ℝ. -/

/-- `max_dBW`: maximum power of the slice in dBW, calibration removed. -/
noncomputable def SigCore.max_dbw (cfg : ExtractCfg) (s : SigCore) : ℝ :=
  dB (maxQ s.data) - cfg.calibration_db

/-- `avg_dBW`: average power of the slice in dBW, calibration removed. -/
noncomputable def SigCore.avg_dbw (cfg : ExtractCfg) (s : SigCore) : ℝ :=
  dB (meanQ s.data) - cfg.calibration_db

/-- `noise_dBW = dB(freq_avg)`: the bin noise floor in dBW. -/
noncomputable def SigCore.noise_dbw (s : SigCore) : ℝ := dB s.noise_lin

/-- `snr_dB = dB(avg / freq_avg)`. -/
noncomputable def SigCore.snr_db (s : SigCore) : ℝ :=
  dB (meanQ s.data / s.noise_lin)

/-- Mean of a list of reals (`np.mean` over the dB domain). -/
noncomputable def meanR (l : List ℝ) : ℝ := l.sum / l.length

/-- `std_dB = np.std(dB(data))`: population standard deviation of the
slice in the dB domain (not referenced by any invariant). -/
noncomputable def SigCore.std_db (s : SigCore) : ℝ :=
  Real.sqrt (meanR (s.data.map
    (fun x => (dB x - meanR (s.data.map (fun y => dB y))) ^ 2)))

/-- `dB` is monotone on positive arguments. -/
theorem dB_le_dB {x y : ℝ} (hx : 0 < x) (hxy : x ≤ y) : dB x ≤ dB y := by
  rw [dB, dB]
  have h10 : (1 : ℝ) < 10 := by norm_num
  have := Real.logb_le_logb_of_le h10 hx hxy
  linarith

/-- `dB` of a quotient of nonzero arguments. -/
theorem dB_div {x y : ℝ} (hx : x ≠ 0) (hy : y ≠ 0) :
    dB (x / y) = dB x - dB y := by
  rw [dB, dB, dB, Real.logb_div hx hy]
  ring

/-- C1 (amended): for every spectrogram block with positive linear power
entries and every configuration, each extracted signal satisfies
`max_dbw ≥ avg_dbw`, and `snr_db = avg_dbw - noise_dbw + calibration_db`
exactly (the source subtracts `calibration_db` from `avg_dBW` but not from
`snr_dB`), so the claimed 1e-9 identity holds only for calibration offsets
within 1e-9 of zero. -/
theorem extract_signals_power_stats {cfg : ExtractCfg}
    {freqs times : List ℚ} {spectro : List (List ℚ)}
    {prior : Option (List (List ℚ))} {out : List SigCore} {s : SigCore}
    (h : extract_signals cfg freqs times spectro prior = some out)
    (hs : s ∈ out)
    (hspec : ∀ row ∈ spectro, ∀ x ∈ row, 0 < x)
    (hprior : ∀ rows, prior = some rows → ∀ row ∈ rows, ∀ x ∈ row, 0 < x) :
    s.avg_dbw cfg ≤ s.max_dbw cfg ∧
      s.snr_db = s.avg_dbw cfg - s.noise_dbw + cfg.calibration_db := by
  obtain ⟨fft, hfft, priorRow, hpr, _, hnoise, hdata, hsub, hfftne⟩ :=
    extract_signals_mem h hs
  have hdatapos : ∀ x ∈ s.data, 0 < x := by
    intro x hx
    rcases hsub x hx with hx' | hx'
    · rcases hpr with hpr | hpr
      · subst hpr
        cases hx'
      · cases hp : prior with
        | none => rw [hp] at hpr; cases hpr
        | some rows =>
          rw [hp] at hpr
          exact hprior rows hp priorRow hpr x hx'
    · exact hspec fft hfft x hx'
  have havg : 0 < meanQ s.data := meanQ_pos hdata hdatapos
  have hmax : 0 < maxQ s.data := maxQ_pos hdata hdatapos
  have hfftpos : ∀ x ∈ fft, 0 < x := hspec fft hfft
  have hnoisepos : 0 < s.noise_lin := hnoise ▸ meanQ_pos hfftne hfftpos
  constructor
  · rw [SigCore.avg_dbw, SigCore.max_dbw]
    have h1 : dB (meanQ s.data) ≤ dB (maxQ s.data) := by
      apply dB_le_dB
      · exact_mod_cast havg
      · exact_mod_cast meanQ_le_maxQ hdata
    linarith
  · rw [SigCore.snr_db, SigCore.avg_dbw, SigCore.noise_dbw]
    rw [dB_div (by exact_mod_cast havg.ne') (by exact_mod_cast hnoisepos.ne')]
    ring

/-- C1 (counterexample): on a concrete block analysed with calibration
offset 10 dB, the emitted signal's `snr_db` misses `avg_dbw - noise_dbw`
by 10 dB, far beyond the claimed 1e-9 tolerance. -/
theorem signal_snr_identity_counterexample :
    extract_signals cfgR [0] [0, 1, 2, 3, 4, 5] [[1, 1, 64, 64, 64, 1]] none =
      some [sigR] ∧
    ¬ (|sigR.snr_db - (sigR.avg_dbw cfgR - sigR.noise_dbw)| ≤
        1 / 1000000000) := by
  refine ⟨extractR, ?_⟩
  have hm : meanQ sigR.data = 193 / 4 := by
    with_unfolding_all decide
  have hkey : sigR.snr_db - (sigR.avg_dbw cfgR - sigR.noise_dbw) = 10 := by
    rw [SigCore.snr_db, SigCore.avg_dbw, SigCore.noise_dbw, hm]
    have hn : sigR.noise_lin = 65 / 2 := rfl
    have hc : cfgR.calibration_db = 10 := rfl
    rw [hn, hc]
    rw [dB_div (by norm_num) (by norm_num)]
    push_cast
    ring
  rw [hkey]
  norm_num

/-- Witness for the amended C1 statement at the concrete run with
calibration offset 10 dB. -/
theorem extract_signals_power_stats_witness :
    sigR.avg_dbw cfgR ≤ sigR.max_dbw cfgR ∧
      sigR.snr_db = sigR.avg_dbw cfgR - sigR.noise_dbw + cfgR.calibration_db :=
  extract_signals_power_stats extractR (List.mem_singleton.mpr rfl)
    (by
      intro row hrow x hx
      simp only [List.mem_singleton] at hrow
      subst hrow
      fin_cases hx <;> norm_num)
    (fun rows hrows => by cases hrows)

/-! ## Analyzer threshold initialisation (`analyze.py`,
`SignalAnalyzer.__init__` lines 115–116) -/

/-- The two linear threshold fields computed once at analyzer startup. -/
structure AnalyzerThresholds where
  signal_threshold : ℝ
  snr_threshold : ℝ

/-- `SignalAnalyzer.__init__`:
`self.signal_threshold = from_dB(signal_threshold_dbw + calibration_db)`
and `self.snr_threshold = from_dB(snr_threshold_db)`. -/
noncomputable def mkThresholds (signal_threshold_dbw snr_threshold_db
    calibration_db : ℚ) : AnalyzerThresholds :=
  ⟨from_dB (signal_threshold_dbw + calibration_db), from_dB snr_threshold_db⟩

theorem from_dB_zero : from_dB 0 = 1 := by
  rw [from_dB, show ((0 : ℝ) / 10) = 0 by norm_num, Real.rpow_zero]

theorem from_dB_ten : from_dB 10 = 10 := by
  rw [from_dB, show ((10 : ℝ) / 10) = 1 by norm_num, Real.rpow_one]

theorem from_dB_neg_ten : from_dB (-10) = 1 / 10 := by
  rw [from_dB, show ((-10 : ℝ) / 10) = -1 by norm_num, Real.rpow_neg_one]
  norm_num

/-- `from_dB` is injective (base 10 exponentials are). -/
theorem from_dB_inj {x y : ℝ} : from_dB x = from_dB y ↔ x = y := by
  rw [from_dB, from_dB]
  constructor
  · intro h
    have h10 : (1 : ℝ) < 10 := by norm_num
    have h1 := (Real.rpow_le_rpow_left_iff h10).mp (le_of_eq h)
    have h2 := (Real.rpow_le_rpow_left_iff h10).mp (ge_of_eq h)
    linarith
  · intro h
    rw [h]

/-- `from_dB` is monotone: raising a dB quantity raises its linear value. -/
theorem from_dB_le_from_dB {x y : ℝ} (h : x ≤ y) : from_dB x ≤ from_dB y := by
  rw [from_dB, from_dB]
  exact (Real.rpow_le_rpow_left_iff (by norm_num)).mpr (by linarith)

/-- C5 (counterexample): with `signal_threshold_dbw = 0` and calibration
offset 10 dB the analyzer's linear power threshold is 10, not
`10^(signal_threshold_dbw/10) = 1`: the power threshold depends on the
per-device calibration offset. -/
theorem signal_threshold_calibration_counterexample :
    (mkThresholds 0 5 10).signal_threshold = 10 ∧ from_dB 0 = 1 ∧
      (mkThresholds 0 5 10).signal_threshold ≠ from_dB 0 := by
  have h1 : (mkThresholds 0 5 10).signal_threshold = 10 := by
    rw [mkThresholds]
    have : ((0 : ℚ) : ℝ) + ((10 : ℚ) : ℝ) = 10 := by push_cast; ring
    rw [this, from_dB_ten]
  refine ⟨h1, from_dB_zero, ?_⟩
  rw [h1, from_dB_zero]
  norm_num

/-- C5 (amended): the linear power threshold equals
`10^((signal_threshold_dbw + calibration_db)/10)` — equal to the claimed
`10^(signal_threshold_dbw/10)` exactly when the calibration offset is
zero — while the linear SNR threshold equals `10^(snr_threshold_db/10)`
and is independent of the calibration offset. -/
theorem analyzer_thresholds_spec :
    (∀ d s c : ℚ, (mkThresholds d s c).signal_threshold =
      from_dB ((d : ℝ) + (c : ℝ))) ∧
    (∀ d s c : ℚ, ((mkThresholds d s c).signal_threshold =
      from_dB (d : ℝ) ↔ (c : ℝ) = 0)) ∧
    (∀ d s c c' : ℚ, (mkThresholds d s c).snr_threshold =
      (mkThresholds d s c').snr_threshold) := by
  refine ⟨fun d s c => rfl, fun d s c => ?_, fun d s c c' => rfl⟩
  rw [mkThresholds]
  constructor
  · intro h
    have := from_dB_inj.mp h
    linarith
  · intro h
    rw [h]
    norm_num

/-! ## Threshold monotonicity (C6) -/

/-- `passB` is antitone in the power threshold: a sample passing the gates
at the higher threshold passes them at the lower one. -/
theorem passB_mono {cfg1 cfg2 : ExtractCfg}
    (hth : cfg1.signal_threshold ≤ cfg2.signal_threshold)
    (hsnr : cfg1.snr_threshold = cfg2.snr_threshold) {fa p : ℚ}
    (h : passB cfg2 fa p = true) : passB cfg1 fa p = true := by
  rw [passB, Bool.and_eq_true, Bool.not_eq_true', Bool.not_eq_true',
    decide_eq_false_iff_not, decide_eq_false_iff_not] at h ⊢
  exact ⟨fun hlt => h.1 (lt_of_lt_of_le hlt hth), hsnr ▸ h.2⟩

/-- C6 (amended): plateau extension is antitone in the power threshold —
with the same block, prior row and SNR threshold, a candidate's forward
extension at a higher power threshold stops no later, and its backward
extension stops no earlier, than at a lower one (the emitted-detection
set itself is not monotone: the duration gate can accept the shrunken
plateau while rejecting the longer low-threshold one, see the
counterexample). -/
theorem extend_plateau_antitone {cfg1 cfg2 : ExtractCfg}
    (hth : cfg1.signal_threshold ≤ cfg2.signal_threshold)
    (hsnr : cfg1.snr_threshold = cfg2.snr_threshold)
    (priorRow fft : List ℚ) (fa : ℚ) (fuel : ℕ) :
    (∀ e, (extendUp cfg2 fft fa fuel e).1 ≤ (extendUp cfg1 fft fa fuel e).1) ∧
    (∀ st : ℤ, extendDown cfg1 priorRow fft fa fuel st ≤
      extendDown cfg2 priorRow fft fa fuel st) := by
  induction fuel with
  | zero => exact ⟨fun e => le_refl e, fun st => le_refl st⟩
  | succ n ih =>
    constructor
    · intro e
      rw [extendUp, extendUp]
      cases h2 : passB cfg2 fa (fft.getD e 0) with
      | true =>
        rw [if_pos rfl, if_pos (passB_mono hth hsnr h2)]
        exact ih.1 (e + 1)
      | false =>
        rw [if_neg (by simp)]
        split
        · exact le_trans (Nat.le_succ e) (extendUp_fst_ge cfg1 fft fa n (e + 1))
        · exact le_refl e
    · intro st
      rw [extendDown, extendDown]
      cases h2 : passB cfg2 fa (powAt priorRow fft st) with
      | true =>
        rw [if_pos rfl, if_pos (passB_mono hth hsnr h2)]
        exact ih.2 (st - 1)
      | false =>
        simp only [Bool.false_eq_true, if_false]
        split
        · exact le_trans (extendDown_le cfg1 priorRow fft fa n (st - 1))
            (sub_le_self st zero_le_one)
        · exact le_refl st

/-- The lower-threshold configuration of the C6 counterexample: linear
power threshold 1 (= `from_dB 0`), linear SNR threshold 1/10
(= `from_dB (-10)`), duration gate [1 s, 3 s], no calibration. -/
def cfg6a : ExtractCfg := ⟨1, 1/10, 1, 3, 0, 0⟩

/-- The same configuration with the power threshold raised to 10
(= `from_dB 10`). -/
def cfg6b : ExtractCfg := ⟨10, 1/10, 1, 3, 0, 0⟩

/-- The pulse found only at the higher threshold. -/
def sig6 : SigCore := ⟨0, 1, 3, [2, 20, 20], 15/2⟩

/-- Witness for the amended C6 statement: on the counterexample block the
forward plateau extension at threshold 10 stops no later than at
threshold 1. -/
theorem extend_plateau_antitone_witness :
    (extendUp cfg6b [2, 20, 20] (15/2) 3 0).1 ≤
      (extendUp cfg6a [2, 20, 20] (15/2) 3 0).1 :=
  (@extend_plateau_antitone cfg6a cfg6b (by norm_num [cfg6a, cfg6b])
    (by norm_num [cfg6a, cfg6b]) [] [2, 20, 20] (15/2) 3).1 0

set_option maxHeartbeats 1000000 in
/-- C6 (counterexample): raising `signal_threshold_dbw` from 0 dBW
(linear 1) to 10 dBW (linear 10) on the same six-sample block makes a new
detection appear: at the lower threshold the single plateau spans 5 s and
is rejected by the 3 s maximum-duration gate, while at the higher
threshold the shrunken 3 s plateau passes the gate. -/
theorem threshold_monotonicity_counterexample :
    from_dB 0 = (cfg6a.signal_threshold : ℝ) ∧
    from_dB 10 = (cfg6b.signal_threshold : ℝ) ∧
    from_dB (-10) = (cfg6a.snr_threshold : ℝ) ∧
    cfg6a.snr_threshold = cfg6b.snr_threshold ∧
    cfg6a.signal_threshold < cfg6b.signal_threshold ∧
    extract_signals cfg6a [0] [0, 1, 2, 3, 4, 5]
      [[1/2, 2, 20, 20, 2, 1/2]] none = some [] ∧
    extract_signals cfg6b [0] [0, 1, 2, 3, 4, 5]
      [[1/2, 2, 20, 20, 2, 1/2]] none = some [sig6] := by
  refine ⟨?_, ?_, ?_, rfl, by norm_num [cfg6a, cfg6b], ?_, ?_⟩
  · rw [from_dB_zero]
    norm_num [cfg6a]
  · rw [from_dB_ten]
    norm_num [cfg6b]
  · rw [from_dB_neg_ten]
    norm_num [cfg6a]
  · norm_num [extract_signals, extractBins, scanBin, strided, extendUp,
      extendDown, candidateSig, passB, powAt, meanQ, cfg6a, List.range']
  · norm_num [extract_signals, extractBins, scanBin, strided, extendUp,
      extendDown, candidateSig, passB, powAt, meanQ, cfg6b, sig6, List.range']
    all_goals simp only [Int.reduceToNat]
    all_goals norm_num [extract_signals, extractBins, scanBin, strided,
      extendUp, extendDown, candidateSig, passB, powAt, meanQ, cfg6b, sig6,
      List.range']

/-! ## Signal matcher (`match.py`, `SignalMatcher`; group operations from
`MatchingSignal` in `__init__.py`)

Timestamps and durations are rationals (seconds); devices are naturals.
`SignalMatcher.add` iterates over the in-flight group list with Python
`for`-loop semantics: `consume` removes the current element during the
iteration, which shifts the remainder left so the element right after a
removed one is skipped.  The loop is embedded index-based with that exact
behaviour. -/

/-- The fields of a `Signal` read by the matcher. -/
structure MSig where
  ts : ℚ
  duration : ℚ
  frequency : ℚ
  avg : ℚ
deriving DecidableEq, Repr

/-- An in-flight `MatchedSignal`: the per-device member dictionary
(`_sigs`), insertion-ordered. -/
structure MGroup where
  sigs : List (ℕ × MSig)
deriving DecidableEq, Repr

/-- `statistics.median`: middle element of the sorted list for odd length,
mean of the two middle elements for even length (0 on the empty list,
which the sources never query). -/
def medianQ (l : List ℚ) : ℚ :=
  let s := l.mergeSort (fun a b => decide (a ≤ b))
  if s.length % 2 = 1 then s.getD (s.length / 2) 0
  else (s.getD (s.length / 2 - 1) 0 + s.getD (s.length / 2) 0) / 2

/-- `MatchingSignal.ts`: earliest member timestamp. -/
def MGroup.ts (g : MGroup) : ℚ := minQ (g.sigs.map (fun p => p.2.ts))

/-- `MatchingSignal.duration`: largest member duration. -/
def MGroup.duration (g : MGroup) : ℚ :=
  maxQ (g.sigs.map (fun p => p.2.duration))

/-- `MatchingSignal.frequency`: median member frequency. -/
def MGroup.frequency (g : MGroup) : ℚ :=
  medianQ (g.sigs.map (fun p => p.2.frequency))

/-- Modelled from the spec: `MatchedSignal.ts_mid`, read by
`SignalMatcher.add` as the expiration reference, is absent from the
sources (`__init__.py` defines no such attribute).  Following the spec's
contrast between `ts` (the group start time) and `ts_mid`, it is taken as
the midpoint of the group's interval, `ts + duration / 2`. -/
def MGroup.ts_mid (g : MGroup) : ℚ := g.ts + g.duration / 2

/-- Python truthiness of the `duration_diff` timedelta in
`if duration_diff:`: `None` and a zero timedelta are falsy. -/
def durationTruthy : Option ℚ → Bool
  | none => false
  | some d => decide (d ≠ 0)

/-- `MatchingSignal.has_member`: frequency window, time window and — only
under a truthy tolerance — duration window. -/
def MGroup.has_member (g : MGroup) (sig : MSig) (time_diff bandwidth : ℚ)
    (duration_diff : Option ℚ) : Bool :=
  if sig.frequency - bandwidth / 2 > g.frequency then false
  else if sig.frequency + bandwidth / 2 < g.frequency then false
  else if sig.ts - time_diff > g.ts + g.duration then false
  else if sig.ts + sig.duration + time_diff < g.ts then false
  else if durationTruthy duration_diff then
    if sig.duration - (duration_diff.getD 0) / 2 > g.duration then false
    else if sig.duration + (duration_diff.getD 0) / 2 < g.duration then false
    else true
  else true

/-- In-place update of the member dictionary at a device key. -/
def assocSet : List (ℕ × MSig) → ℕ → MSig → List (ℕ × MSig)
  | [], d, s => [(d, s)]
  | (d', s') :: rest, d, s =>
    if d' = d then (d, s) :: rest else (d', s') :: assocSet rest d s

/-- Lookup of the member dictionary at a device key. -/
def lookupD : List (ℕ × MSig) → ℕ → Option MSig
  | [], _ => none
  | (d', s') :: rest, d => if d' = d then some s' else lookupD rest d

/-- `add_member` as called by the matcher (`msig.add_member(device, sig)`,
duplicate-device resolution per `MatchingSignal.add_member`): a second
detection from the same device replaces the stored one only when its
average power is larger. -/
def MGroup.add_member (g : MGroup) (device : ℕ) (sig : MSig) : MGroup :=
  match lookupD g.sigs device with
  | some old => if old.avg < sig.avg then ⟨assocSet g.sigs device sig⟩ else g
  | none => ⟨g.sigs ++ [(device, sig)]⟩

/-- The matcher tolerances after `SignalMatcher.__init__`. -/
structure MatcherCfg where
  matching_timeout : ℚ
  matching_time_diff : ℚ
  matching_bandwidth_hz : ℚ
  matching_duration_diff : Option ℚ
deriving DecidableEq, Repr

/-- `SignalMatcher.__init__` (`match.py` lines 78–81): seconds/milliseconds
conversion, and `matching_duration_diff = timedelta(...) if
matching_duration_diff_ms else None` — a missing or zero (falsy)
millisecond value both yield `None`. -/
def mkMatcherCfg (matching_timeout_s matching_time_diff_ms
    matching_bandwidth_hz : ℚ) (matching_duration_diff_ms : Option ℚ) :
    MatcherCfg :=
  ⟨matching_timeout_s, matching_time_diff_ms / 1000, matching_bandwidth_hz,
    match matching_duration_diff_ms with
    | some m => if m ≠ 0 then some (m / 1000) else none
    | none => none⟩

/-- Result of one `SignalMatcher.add` call: the in-flight list afterwards,
the groups consumed by the timeout branch (in consumption order) and the
group consumed by the four-member completion branch, if any. -/
structure AddResult where
  matched : List MGroup
  timedOut : List MGroup
  completed : Option MGroup
deriving DecidableEq, Repr

/-- The `for msig in self._matched` loop of `SignalMatcher.add`, indexed;
`i` is the position of the element under inspection in the current list.
On the timeout branch the element is removed and iteration continues at
index `i + 1` of the shortened list (Python skips the element that slid
into the removed slot).  On a match the member is added; with exactly 4
members the group is consumed and the call returns, otherwise it returns
with the group updated in place.  Falling off the list appends a fresh
group holding only the new signal. -/
def addLoop (cfg : MatcherCfg) (dev : ℕ) (sig : MSig) :
    ℕ → List MGroup → ℕ → AddResult
  | 0, gs, _ => ⟨gs ++ [⟨[(dev, sig)]⟩], [], none⟩
  | fuel + 1, gs, i =>
    if h : i < gs.length then
      let g := gs.get ⟨i, h⟩
      if g.ts_mid < sig.ts - cfg.matching_timeout then
        let r := addLoop cfg dev sig fuel (gs.eraseIdx i) (i + 1)
        ⟨r.matched, g :: r.timedOut, r.completed⟩
      else if g.has_member sig cfg.matching_time_diff
          cfg.matching_bandwidth_hz cfg.matching_duration_diff then
        let g' := g.add_member dev sig
        if g'.sigs.length = 4 then ⟨(gs.set i g').eraseIdx i, [], some g'⟩
        else ⟨gs.set i g', [], none⟩
      else addLoop cfg dev sig fuel gs (i + 1)
    else ⟨gs ++ [⟨[(dev, sig)]⟩], [], none⟩

/-- `SignalMatcher.add` on the in-flight list `gs` (`gs.length + 1` loop
steps always suffice: the index grows each step and removals shrink the
list). -/
def SignalMatcher_add (cfg : MatcherCfg) (gs : List MGroup) (dev : ℕ)
    (sig : MSig) : AddResult :=
  addLoop cfg dev sig (gs.length + 1) gs 0

/-- A whole run of the matcher over a sequence of incoming signals,
starting from the empty in-flight list: final state and every emitted
group in emission order. -/
def matcherRun (cfg : MatcherCfg) (sigs : List (ℕ × MSig)) :
    List MGroup × List MGroup :=
  sigs.foldl
    (fun acc ds =>
      let r := SignalMatcher_add cfg acc.1 ds.1 ds.2
      (r.matched, acc.2 ++ r.timedOut ++ r.completed.toList))
    ([], [])

/-- An element of a list distinct from the element at a removed index
survives the removal. -/
theorem mem_eraseIdx_of_mem_ne {l : List MGroup} {i : ℕ} {a : MGroup}
    (h : i < l.length) (ha : a ∈ l) (hne : a ≠ l.get ⟨i, h⟩) :
    a ∈ l.eraseIdx i := by
  induction l generalizing i with
  | nil => cases ha
  | cons b bs ih =>
    cases i with
    | zero =>
      rcases List.mem_cons.mp ha with hb | hb
      · exact absurd hb hne
      · exact hb
    | succ j =>
      rw [List.eraseIdx_cons_succ]
      rcases List.mem_cons.mp ha with hb | hb
      · exact List.mem_cons.mpr (Or.inl hb)
      · exact List.mem_cons.mpr
          (Or.inr (ih (by simpa using h) hb (by simpa using hne)))

theorem addLoop_emission (cfg : MatcherCfg) (dev : ℕ) (sig : MSig) :
    ∀ (fuel : ℕ) (gs : List MGroup) (i : ℕ),
    (∀ g ∈ (addLoop cfg dev sig fuel gs i).timedOut,
      g.ts_mid < sig.ts - cfg.matching_timeout) ∧
    (∀ g, (addLoop cfg dev sig fuel gs i).completed = some g →
      g.sigs.length = 4) := by
  intro fuel
  induction fuel with
  | zero =>
    intro gs i
    simp only [addLoop]
    exact ⟨(by intro g hg; cases hg), (by intro g hg; cases hg)⟩
  | succ n ih =>
    intro gs i
    simp only [addLoop]
    split
    · split
      · refine ⟨?_, ?_⟩
        · intro g hg
          rcases List.mem_cons.mp hg with hg | hg
          · subst hg
            assumption
          · exact (ih _ _).1 g hg
        · exact (ih _ _).2
      · split
        · split
          · exact ⟨(by intro g hg; cases hg),
              (by intro g hg; cases hg; assumption)⟩
          · exact ⟨(by intro g hg; cases hg), (by intro g hg; cases hg)⟩
        · exact ih _ _
    · exact ⟨(by intro g hg; cases hg), (by intro g hg; cases hg)⟩

/-- C2 (amended): each `SignalMatcher.add` call emits a group only through
one of two channels: the timeout branch, whose every emission satisfies
`ts_mid < t - matching_timeout`, or the completion branch, which fires
exactly when the group has collected its 4th member — so a full group is
consumed immediately, before any timeout elapses. -/
theorem matcher_add_emission (cfg : MatcherCfg) (gs : List MGroup)
    (dev : ℕ) (sig : MSig) :
    (∀ g ∈ (SignalMatcher_add cfg gs dev sig).timedOut,
      g.ts_mid < sig.ts - cfg.matching_timeout) ∧
    (∀ g, (SignalMatcher_add cfg gs dev sig).completed = some g →
      g.sigs.length = 4) := by
  rw [SignalMatcher_add]
  exact addLoop_emission cfg dev sig (gs.length + 1) gs 0

theorem addLoop_nonexpired (cfg : MatcherCfg) (dev : ℕ) (sig : MSig)
    (g : MGroup) (hne : ¬ (g.ts_mid < sig.ts - cfg.matching_timeout)) :
    ∀ (fuel : ℕ) (gs : List MGroup) (i : ℕ), g ∈ gs →
      g ∉ (addLoop cfg dev sig fuel gs i).timedOut := by
  intro fuel
  induction fuel with
  | zero =>
    intro gs i _ h
    simp only [addLoop] at h
    cases h
  | succ n ih =>
    intro gs i hg
    simp only [addLoop]
    split
    · split
      · rename_i hlt hexp
        intro hmem
        rcases List.mem_cons.mp hmem with hmem | hmem
        · subst hmem
          exact hne hexp
        · have hgm : g ∈ gs.eraseIdx i :=
            mem_eraseIdx_of_mem_ne hlt hg (by
              intro heq
              rw [heq] at hne
              exact hne hexp)
          exact ih _ _ hgm hmem
      · split
        · split
          · intro h
            cases h
          · intro h
            cases h
        · exact ih _ _ hg
    · intro h
      cases h

/-- C3 (amended): the expiration reference of `SignalMatcher.add` is
`ts_mid` (spec-modelled as `ts + duration / 2`), not the group start `ts`:
a group whose `ts_mid` has not passed the deadline is never consumed by
the timeout branch of the scan — but a group whose `ts` has passed it may
survive the step without being emitted, see the counterexample. -/
theorem matcher_nonexpired_not_timedOut (cfg : MatcherCfg)
    (gs : List MGroup) (dev : ℕ) (sig : MSig) (g : MGroup) (hg : g ∈ gs)
    (hne : ¬ (g.ts_mid < sig.ts - cfg.matching_timeout)) :
    g ∉ (SignalMatcher_add cfg gs dev sig).timedOut := by
  rw [SignalMatcher_add]
  exact addLoop_nonexpired cfg dev sig g hne (gs.length + 1) gs 0 hg

/-- The matcher configuration of the concrete scenarios: 2 s timeout, no
time/frequency/duration tolerance. -/
def cfg2m : MatcherCfg := mkMatcherCfg 2 0 0 none

/-- Four concurrent detections, one per device. -/
def s0 : MSig := ⟨0, 1, 150, -50⟩

def s1 : MSig := ⟨1/10, 1, 150, -48⟩

def s2 : MSig := ⟨2/10, 1, 150, -47⟩

def s3 : MSig := ⟨3/10, 1, 150, -46⟩

/-- The group holding all four detections. -/
def gFull : MGroup := ⟨[(0, s0), (1, s1), (2, s2), (3, s3)]⟩

/-- The three-member group right before the fourth detection arrives. -/
def g3 : MGroup := ⟨[(0, s0), (1, s1), (2, s2)]⟩

set_option maxRecDepth 4000 in
/-- C2 (counterexample): feeding four in-tolerance signals (one per
device) to a fresh matcher emits the completed four-member group
immediately on the fourth `add` — long before its expiry deadline, which
refutes emission-only-on-expiry. -/
theorem matcher_emission_on_completion_counterexample :
    (matcherRun cfg2m [(0, s0), (1, s1), (2, s2), (3, s3)]).2 = [gFull] ∧
    ¬ (gFull.ts_mid < s3.ts - cfg2m.matching_timeout) := by
  constructor
  · with_unfolding_all decide
  · with_unfolding_all decide

/-- Witness for the amended C2 statement: the group emitted by the
completion branch on the fourth add indeed holds four members. -/
theorem matcher_add_emission_witness : gFull.sigs.length = 4 :=
  (matcher_add_emission cfg2m [g3] 3 s3).2 gFull
    (by with_unfolding_all decide)

/-- A one-member group whose start time `ts = 0` long predates the
expiry deadline while its midpoint `ts_mid = 5` does not. -/
def g0 : MGroup := ⟨[(0, ⟨0, 10, 150, -50⟩)]⟩

/-- An incoming signal at `t = 4` on a far-away frequency. -/
def sigX : MSig := ⟨4, 1, 999, -50⟩

/-- C3 (counterexample): with `matching_timeout = 2` and an incoming
signal at `t = 4`, the group `g0` satisfies `ts < t - matching_timeout`
(0 < 2), so per the claim the expire step must remove and emit it — but
the code compares `ts_mid = 5` against the deadline, removes nothing and
keeps the group in flight. -/
theorem matcher_expiry_reference_counterexample :
    MGroup.ts g0 < sigX.ts - cfg2m.matching_timeout ∧
    (SignalMatcher_add cfg2m [g0] 1 sigX).timedOut = [] ∧
    (SignalMatcher_add cfg2m [g0] 1 sigX).completed = none ∧
    g0 ∈ (SignalMatcher_add cfg2m [g0] 1 sigX).matched := by
  refine ⟨?_, ?_, ?_, ?_⟩ <;> with_unfolding_all decide

/-- Witness for the amended C3 statement at the concrete scenario. -/
theorem matcher_nonexpired_not_timedOut_witness :
    g0 ∉ (SignalMatcher_add cfg2m [g0] 1 sigX).timedOut :=
  matcher_nonexpired_not_timedOut cfg2m [g0] 1 sigX g0
    (by with_unfolding_all decide) (by with_unfolding_all decide)

/-- C10: configuring `matching_duration_diff_ms = 0` disables the duration
comparison of `has_member` entirely, exactly as if no duration tolerance
had been configured: the zero config yields the same matcher tolerances as
the missing one, and for every bound `D` there is a group/signal pair
whose durations differ by at least `D` that `has_member` still accepts
under the zero-configured tolerance (frequency and time-window conditions
holding). -/
theorem zero_duration_diff_disables_check :
    (∀ t td bw : ℚ, mkMatcherCfg t td bw (some 0) = mkMatcherCfg t td bw none) ∧
    (∀ D : ℚ, ∃ (g : MGroup) (sig : MSig),
      sig.duration - g.duration ≥ D ∧
      MGroup.has_member g sig 0 0
        (mkMatcherCfg 2 0 0 (some 0)).matching_duration_diff = true) := by
  constructor
  · intro t td bw
    simp only [mkMatcherCfg]
    norm_num
  · intro D
    refine ⟨⟨[(0, ⟨0, 1, 150, -50⟩)]⟩, ⟨0, max D 0 + 1, 150, -50⟩, ?_, ?_⟩
    · show max D 0 + 1 - MGroup.duration ⟨[(0, ⟨0, 1, 150, -50⟩)]⟩ ≥ D
      have hdur : MGroup.duration ⟨[(0, ⟨0, 1, 150, -50⟩)]⟩ = 1 := by
        with_unfolding_all decide
      rw [hdur]
      have := le_max_left D (0 : ℚ)
      linarith
    · have hfreq : MGroup.frequency ⟨[(0, ⟨0, 1, 150, -50⟩)]⟩ = 150 := by
        with_unfolding_all decide
      have hts : MGroup.ts ⟨[(0, ⟨0, 1, 150, -50⟩)]⟩ = 0 := by
        with_unfolding_all decide
      have hdur : MGroup.duration ⟨[(0, ⟨0, 1, 150, -50⟩)]⟩ = 1 := by
        with_unfolding_all decide
      have hdd : (mkMatcherCfg 2 0 0 (some 0)).matching_duration_diff =
          none := by
        simp only [mkMatcherCfg]
        norm_num
      rw [MGroup.has_member, hfreq, hts, hdur, hdd]
      have hmax : (0 : ℚ) ≤ max D 0 := le_max_right D 0
      rw [if_neg (by norm_num), if_neg (by norm_num),
        if_neg (by norm_num), if_neg (by push_cast; linarith),
        if_neg (by simp [durationTruthy])]

/-! ## Schedule validation (`__main__.py`, `Runner.__init__` lines 256–289)

Daily times are modelled as seconds of the day (naturals); each schedule
entry is a `(start, stop)` pair.  `Runner.__init__` raises
`ScheduleError` — caught and turned into `exit(1)` — when an entry's start
lies after its stop, or when the overlap scan against the already accepted
entries fires.  `none` models the `exit(1)` outcome. -/

/-- The overlap scan of one new entry `(start, stop)` against the accepted
schedule: raise when another entry starts before us and does not finish
before us, or when we start before it and do not finish before it.  Two
entries with the same start time satisfy neither strict inequality. -/
def overlapErr (sched : List (ℕ × ℕ)) (start stop : ℕ) : Bool :=
  sched.any (fun other =>
    (decide (other.1 < start) && !(decide (other.2 < start))) ||
    (decide (start < other.1) && !(decide (stop < other.1))))

/-- Sequential processing of the configured schedule entries, accumulating
the accepted ones; `none` is the fatal `exit(1)`. -/
def buildSchedule : List (ℕ × ℕ) → List (ℕ × ℕ) → Option (List (ℕ × ℕ))
  | [], sched => some sched
  | (start, stop) :: rest, sched =>
    if start > stop then none
    else if overlapErr sched start stop then none
    else buildSchedule rest (sched ++ [(start, stop)])

/-- `Runner.__init__`'s schedule loop over the configured entries. -/
def validateSchedule (entries : List (ℕ × ℕ)) : Option (List (ℕ × ℕ)) :=
  buildSchedule entries []

/-- C7: startup accepts a schedule of two overlapping daily intervals with
equal start times: `10:00:00-11:00:00` and `10:00:00-12:00:00` share every
instant of `[10:00:00, 11:00:00]`, yet `validateSchedule` succeeds — both
overlap conditions use strict `<` on the start times, so equal starts
bypass the check and no fatal error (exit code 1) occurs. -/
theorem schedule_overlap_missed :
    ((36000 : ℕ) ≤ 36000 ∧ (36000 : ℕ) ≤ 39600) ∧
    ((36000 : ℕ) ≤ 36000 ∧ (36000 : ℕ) ≤ 43200) ∧
    validateSchedule [(36000, 39600), (36000, 43200)] =
      some [(36000, 39600), (36000, 43200)] := by decide

end Radiotracking
